import Mathlib

/-!
Verification of the pymono workspace tooling (`scripts/affected.py`,
`scripts/check_deps.py`, `scripts/detect_changes.py`, `scripts/dep_graph.py`).

The scripts' core logic is shallowly embedded here:
* Python strings become `String` (reasoning is done on `String.data : List Char`);
* Python sets (`set`, `dict` keys) used only for membership become `Finset String`
  or `List String` with membership;
* Python `dict`/`defaultdict(list)` maps become association lists
  `List (String × List String)` read through a lookup with a `[]` default,
  matching `d.get(k, [])`;
* the `while queue:` worklist loop of `expand_dependents` becomes a
  well-founded recursion whose measure is proved to decrease exactly because a
  package is enqueued at most once (on first insertion into the result set);
* the recursive `dfs` of `check_no_cycles` becomes a fuel-indexed recursion;
  the fuel used by the top-level driver is larger than the maximal possible
  recursion depth (every frame that recurses marks a fresh node visited, so the
  depth is bounded by the number of distinct node names, which is at most
  `names.length + total length of adjacency values`).
-/

set_option maxHeartbeats 1000000

namespace Pymono

/-! ### Dependency specifier normalizer (`parse_dep_name`)

The same function appears verbatim in `affected.py` (line 49), `check_deps.py`
(line 59), `detect_changes.py` (line 29) and `dep_graph.py` (line 36):

    return dep.split("[")[0].split(">")[0].split("<")[0].split("=")[0]
              .split("!")[0].split(";")[0].strip()
-/

/-- The ASCII whitespace characters removed by Python's `str.strip()`
(space, tab, newline, carriage return, vertical tab, form feed). -/
def pyIsSpace (c : Char) : Bool :=
  c == ' ' || c == '\t' || c == '\n' || c == '\r' ||
    c == Char.ofNat 11 || c == Char.ofNat 12

/-- Python `s.split(c)[0]`: the characters strictly before the first
occurrence of `c` (the whole list when `c` does not occur). -/
def splitHead (c : Char) (l : List Char) : List Char :=
  l.takeWhile (fun x => x != c)

/-- Python `s.strip()`: drop whitespace from both ends. -/
def pyStrip (l : List Char) : List Char :=
  ((l.dropWhile pyIsSpace).reverse.dropWhile pyIsSpace).reverse

/-- `parse_dep_name` (affected.py line 49, check_deps.py line 59,
detect_changes.py line 29, dep_graph.py line 36): chained `split(...)[0]`
truncations followed by `strip()`. -/
def parse_dep_name (dep : String) : String :=
  ⟨pyStrip (splitHead ';' (splitHead '!' (splitHead '='
      (splitHead '<' (splitHead '>' (splitHead '[' dep.data))))))⟩

/-- The delimiter set named by the spec (§4.1). -/
def isDelim (c : Char) : Bool :=
  c == '[' || c == '>' || c == '<' || c == '=' || c == '!' || c == ';'

/-- Modelled from the spec's words (§4.1), for comparison with
`parse_dep_name`: take the prefix of the string before the earliest
occurrence of any delimiter, then trim surrounding whitespace. -/
def spec_parse_dep_name (dep : String) : String :=
  ⟨pyStrip (dep.data.takeWhile (fun c => !(isDelim c)))⟩

theorem takeWhile_and (p q : Char → Bool) (l : List Char) :
    (l.takeWhile p).takeWhile q = l.takeWhile (fun a => p a && q a) := by
  induction l with
  | nil => rfl
  | cons a t IH =>
      by_cases hp : p a <;> by_cases hq : q a <;>
        simp [List.takeWhile_cons, hp, hq, IH]

theorem splitHead_chain (l : List Char) :
    splitHead ';' (splitHead '!' (splitHead '='
        (splitHead '<' (splitHead '>' (splitHead '[' l))))) =
      l.takeWhile (fun c => !(isDelim c)) := by
  simp only [splitHead, takeWhile_and]
  congr 1
  funext c
  cases h1 : c == '[' <;> cases h2 : c == '>' <;> cases h3 : c == '<' <;>
    cases h4 : c == '=' <;> cases h5 : c == '!' <;> cases h6 : c == ';' <;>
      simp [isDelim, bne, h1, h2, h3, h4, h5, h6]

/-- **C6.** `parse_dep_name` returns the prefix of the string before the
earliest occurrence of any delimiter in `{'[', '>', '<', '=', '!', ';'}`
(the whole string when none occurs), with surrounding whitespace trimmed. -/
theorem parse_dep_name_eq_spec (dep : String) :
    parse_dep_name dep = spec_parse_dep_name dep := by
  unfold parse_dep_name spec_parse_dep_name
  rw [splitHead_chain]

theorem head?_dropWhile (p : Char → Bool) :
    ∀ (l : List Char) (x : Char), (l.dropWhile p).head? = some x → p x = false := by
  intro l
  induction l with
  | nil => simp [List.dropWhile]
  | cons a t IH =>
      intro x h
      rw [List.dropWhile_cons] at h
      by_cases hp : p a
      · rw [if_pos hp] at h
        exact IH x h
      · rw [if_neg hp] at h
        simp only [List.head?_cons, Option.some.injEq] at h
        subst h
        simpa using hp

theorem dropWhile_eq_self_of_head (p : Char → Bool) (l : List Char)
    (h : ∀ x, l.head? = some x → p x = false) : l.dropWhile p = l := by
  cases l with
  | nil => rfl
  | cons a t =>
      have ha := h a rfl
      rw [List.dropWhile_cons, if_neg (by simp [ha])]

theorem pyStrip_head (l : List Char) :
    ∀ x, (pyStrip l).head? = some x → pyIsSpace x = false := by
  intro x hx
  unfold pyStrip at hx
  rw [List.head?_reverse] at hx
  have hsuf : ((l.dropWhile pyIsSpace).reverse.dropWhile pyIsSpace) <:+
      (l.dropWhile pyIsSpace).reverse := List.dropWhile_suffix pyIsSpace
  obtain ⟨w, hw⟩ := hsuf
  have hne : (l.dropWhile pyIsSpace).reverse.dropWhile pyIsSpace ≠ [] := by
    intro h0
    rw [h0] at hx
    simp at hx
  have hY : ((l.dropWhile pyIsSpace).reverse).getLast? = some x := by
    rw [← hw, List.getLast?_append_of_ne_nil w hne]
    exact hx
  rw [List.getLast?_reverse] at hY
  exact head?_dropWhile pyIsSpace l x hY

theorem pyStrip_getLast (l : List Char) :
    ∀ x, (pyStrip l).getLast? = some x → pyIsSpace x = false := by
  intro x hx
  unfold pyStrip at hx
  rw [List.getLast?_reverse] at hx
  exact head?_dropWhile pyIsSpace _ x hx

theorem pyStrip_of_ends (l : List Char)
    (h1 : ∀ x, l.head? = some x → pyIsSpace x = false)
    (h2 : ∀ x, l.getLast? = some x → pyIsSpace x = false) : pyStrip l = l := by
  unfold pyStrip
  rw [dropWhile_eq_self_of_head pyIsSpace l h1]
  rw [dropWhile_eq_self_of_head pyIsSpace l.reverse
    (by intro x hx; rw [List.head?_reverse] at hx; exact h2 x hx)]
  exact List.reverse_reverse l

theorem pyStrip_idem (l : List Char) : pyStrip (pyStrip l) = pyStrip l :=
  pyStrip_of_ends (pyStrip l) (pyStrip_head l) (pyStrip_getLast l)

theorem mem_pyStrip (l : List Char) (x : Char) (h : x ∈ pyStrip l) : x ∈ l := by
  unfold pyStrip at h
  rw [List.mem_reverse] at h
  have h2 := (List.dropWhile_suffix pyIsSpace).subset h
  rw [List.mem_reverse] at h2
  exact (List.dropWhile_suffix pyIsSpace).subset h2

theorem parse_dep_name_data (dep : String) :
    (parse_dep_name dep).data =
      pyStrip (dep.data.takeWhile (fun c => !(isDelim c))) := by
  unfold parse_dep_name
  rw [splitHead_chain]

/-- **C8.** For every input string, the string returned by `parse_dep_name`
contains none of the characters `'['`, `'>'`, `'<'`, `'='`, `'!'`, `';'`, and
`parse_dep_name` is idempotent. -/
theorem parse_dep_name_delim_free_and_idem (dep : String) :
    (parse_dep_name dep).data.all (fun c => !(isDelim c)) = true ∧
      parse_dep_name (parse_dep_name dep) = parse_dep_name dep := by
  have hfree : ∀ c ∈ (parse_dep_name dep).data, !(isDelim c) := by
    intro c hc
    rw [parse_dep_name_data] at hc
    have := List.mem_takeWhile_imp (mem_pyStrip _ c hc)
    simpa using this
  constructor
  · exact List.all_eq_true.mpr hfree
  · have hchain : splitHead ';' (splitHead '!' (splitHead '='
        (splitHead '<' (splitHead '>' (splitHead '[' (parse_dep_name dep).data))))) =
          (parse_dep_name dep).data := by
      rw [splitHead_chain]
      exact List.takeWhile_eq_self_iff.mpr hfree
    have hstrip : pyStrip (parse_dep_name dep).data = (parse_dep_name dep).data := by
      rw [parse_dep_name_data]
      exact pyStrip_idem _
    show (⟨pyStrip (splitHead ';' (splitHead '!' (splitHead '='
        (splitHead '<' (splitHead '>' (splitHead '[' (parse_dep_name dep).data))))))⟩ : String)
        = parse_dep_name dep
    rw [hchain, hstrip]

/-! ### Path-to-package resolution (`file_to_package`) -/

/-- A workspace member as consumed by `affected.py` / `detect_changes.py`:
its project name, its directory relative to the repository root
(Python: `str(toml_path.parent.relative_to(ROOT))`), and its raw declared
dependency specifiers.  Manifest discovery and parsing are external
collaborators (spec §1), so members are taken as given records. -/
structure AMember where
  name : String
  dir : String
  deps : List String
deriving DecidableEq

/-- Python `s.startswith(p)`. -/
def strStartsWith (s p : String) : Bool :=
  p.data.isPrefixOf s.data

/-- The ownership test of `file_to_package` (affected.py line 112,
detect_changes.py line 76):
`filepath.startswith(pkg_dir + "/") or filepath == pkg_dir`. -/
def ownsFile (m : AMember) (filepath : String) : Bool :=
  strStartsWith filepath (m.dir ++ "/") || filepath == m.dir

/-- `file_to_package` (affected.py lines 108–114, detect_changes.py lines
72–78): scan the members in iteration order and return the name of the first
one whose directory owns the path, `none` when no directory matches. -/
def file_to_package (filepath : String) (ms : List AMember) : Option String :=
  match ms with
  | [] => none
  | m :: rest =>
      if ownsFile m filepath then some m.name else file_to_package filepath rest

/-- **C7 counterexample.** With a member list containing a package directory
nested inside another (realizable: `libs/a/pyproject.toml` sorts before
`libs/a/z/pyproject.toml`, so the outer package is discovered first),
`file_to_package` returns the FIRST matching member, not the one with the
longest matching directory: both directories match `"libs/a/z/f.py"`, the
nested directory is strictly longer, yet the outer package is returned. -/
theorem file_to_package_not_longest :
    file_to_package "libs/a/z/f.py"
        [⟨"outer", "libs/a", []⟩, ⟨"inner", "libs/a/z", []⟩] = some "outer" ∧
      ownsFile ⟨"outer", "libs/a", []⟩ "libs/a/z/f.py" = true ∧
      ownsFile ⟨"inner", "libs/a/z", []⟩ "libs/a/z/f.py" = true ∧
      ("libs/a/z" : String).length > ("libs/a" : String).length := by
  decide

/-- **C7 amended.** `file_to_package` returns the package of the first member
in iteration order whose directory matches the path (path equals the
directory, or starts with the directory followed by `"/"`); in particular,
when exactly one member matches — the disjoint-directory situation the
reference behavior assumes — that member is returned. -/
theorem file_to_package_first_match (fp : String) (l1 : List AMember)
    (m : AMember) (l2 : List AMember)
    (h1 : ∀ m' ∈ l1, ownsFile m' fp = false) (h2 : ownsFile m fp = true) :
    file_to_package fp (l1 ++ m :: l2) = some m.name := by
  induction l1 with
  | nil => simp [file_to_package, h2]
  | cons a t IH =>
      have ha : ownsFile a fp = false := h1 a (List.mem_cons_self a t)
      have ht : ∀ m' ∈ t, ownsFile m' fp = false := fun m' hm' =>
        h1 m' (List.mem_cons_of_mem a hm')
      rw [List.cons_append]
      show (if ownsFile a fp then some a.name
          else file_to_package fp (t ++ m :: l2)) = some m.name
      rw [ha]
      simpa using IH ht

/-- Witness for C7's amended theorem at a concrete input. -/
theorem file_to_package_first_match_witness :
    file_to_package "libs/p/f.py"
        ([⟨"q", "libs/q", []⟩] ++ ⟨"p", "libs/p", []⟩ :: []) = some "p" :=
  file_to_package_first_match "libs/p/f.py" [⟨"q", "libs/q", []⟩]
    ⟨"p", "libs/p", []⟩ [] (by decide) (by decide)

/-! ### Package classification (`classify` in dep_graph.py,
`classify_member` in check_deps.py)

Both functions look only at `toml_path.relative_to(ROOT).parts[0]`, the
top-level folder containing the package; they are embedded as functions of
that first component. -/

/-- `classify` (dep_graph.py lines 29–33): `"app"` when the top-level folder
is `"apps"`, otherwise `"lib"`. -/
def classify (top : String) : String :=
  if top = "apps" then "app" else "lib"

/-- `classify_member` (check_deps.py lines 48–56): `"app"` / `"lib"` for the
`apps` / `libs` top-level folders, `None` otherwise. -/
def classify_member (top : String) : Option String :=
  if top = "apps" then some "app"
  else if top = "libs" then some "lib"
  else none

/-- **C9 counterexample.** For a package whose top-level folder is neither
`"apps"` nor `"libs"` (here `"tools"`), dep_graph.py's `classify` returns
`"lib"` while check_deps.py's `classify_member` returns `none`
(Unclassified): the two classifiers do not agree there. -/
theorem classify_disagree_on_unclassified :
    classify "tools" = "lib" ∧ classify_member "tools" = none ∧
      classify_member "tools" ≠ some (classify "tools") := by
  decide

/-- **C9 amended.** The two classifiers agree (app with `"app"`, lib with
`"lib"`) exactly on packages whose top-level folder is `"apps"` or `"libs"`;
for every other top-level folder, `classify` returns `"lib"` while
`classify_member` returns `none`. -/
theorem classify_member_agrees_on_classified (top : String) :
    (top = "apps" ∨ top = "libs" → classify_member top = some (classify top)) ∧
      (top ≠ "apps" → top ≠ "libs" →
        classify top = "lib" ∧ classify_member top = none) := by
  constructor
  · rintro (h | h) <;> subst h <;> rfl
  · intro h1 h2
    constructor
    · simp [classify, h1]
    · simp [classify_member, h1, h2]

/-- Witness for C9's amended theorem at concrete inputs. -/
theorem classify_member_agrees_witness :
    classify_member "apps" = some (classify "apps") ∧
      classify "tools2" = "lib" ∧ classify_member "tools2" = none :=
  ⟨(classify_member_agrees_on_classified "apps").1 (Or.inl rfl),
    (classify_member_agrees_on_classified "tools2").2 (by decide) (by decide)⟩

/-! ### The dependents closure (`expand_dependents`)

`reverse_deps` is a Python `defaultdict(list)` read through
`reverse_deps.get(pkg, [])`; it is embedded as an association list with a
lookup defaulting to `[]`. -/

/-- `d.get(k, [])` on an association list. -/
def lookupList (rd : List (String × List String)) (k : String) : List String :=
  match rd with
  | [] => []
  | (k', vs) :: rest => if k' = k then vs else lookupList rest k

/-- Every value stored anywhere in the map: the finite universe from which
the worklist loop can draw new elements. -/
def valuesFinset (rd : List (String × List String)) : Finset String :=
  (rd.map Prod.snd).flatten.toFinset

theorem lookup_mem_values (rd : List (String × List String)) (k : String) :
    ∀ v ∈ lookupList rd k, v ∈ valuesFinset rd := by
  induction rd with
  | nil => intro v hv; simp [lookupList] at hv
  | cons p rest IH =>
      intro v hv
      obtain ⟨k', vs⟩ := p
      rw [lookupList] at hv
      by_cases hk : k' = k
      · rw [if_pos hk] at hv
        simp [valuesFinset, List.mem_flatten]
        exact Or.inl hv
      · rw [if_neg hk] at hv
        have := IH v hv
        simp only [valuesFinset, List.mem_toFinset, List.mem_flatten] at this ⊢
        obtain ⟨l, hl, hvl⟩ := this
        exact ⟨l, by simp at hl ⊢; exact Or.inr hl, hvl⟩

/-- The body of the `for dependent in reverse_deps.get(pkg, [])` loop
(affected.py lines 123–126, detect_changes.py lines 87–90): every dependent
not yet in the result is inserted into the result and pushed on the queue. -/
def processDeps (deps : List String) (result : Finset String)
    (queue : List String) : Finset String × List String :=
  match deps with
  | [] => (result, queue)
  | d :: ds =>
      if d ∈ result then processDeps ds result queue
      else processDeps ds (insert d result) (d :: queue)

theorem processDeps_subset (deps : List String) :
    ∀ (r : Finset String) (q : List String), r ⊆ (processDeps deps r q).1 := by
  induction deps with
  | nil => intro r q; simp [processDeps]
  | cons d ds IH =>
      intro r q
      by_cases hd : d ∈ r
      · simpa [processDeps, hd] using IH r q
      · simp only [processDeps, if_neg hd]
        exact (Finset.subset_insert d r).trans (IH (insert d r) (d :: q))

theorem processDeps_queue_sub (deps : List String) :
    ∀ (r : Finset String) (q : List String) (x : String),
      x ∈ q → x ∈ (processDeps deps r q).2 := by
  induction deps with
  | nil => intro r q x hx; simpa [processDeps] using hx
  | cons d ds IH =>
      intro r q x hx
      by_cases hd : d ∈ r
      · simpa [processDeps, hd] using IH r q x hx
      · simp only [processDeps, if_neg hd]
        exact IH (insert d r) (d :: q) x (List.mem_cons_of_mem d hx)

theorem processDeps_new_in_queue (deps : List String) :
    ∀ (r : Finset String) (q : List String) (x : String),
      x ∈ (processDeps deps r q).1 → x ∈ r ∨ x ∈ (processDeps deps r q).2 := by
  induction deps with
  | nil => intro r q x hx; simpa [processDeps] using Or.inl hx
  | cons d ds IH =>
      intro r q x hx
      by_cases hd : d ∈ r
      · simp only [processDeps, if_neg, if_pos hd] at hx ⊢
        exact IH r q x hx
      · simp only [processDeps, if_neg hd] at hx ⊢
        rcases IH (insert d r) (d :: q) x hx with h | h
        · rcases Finset.mem_insert.mp h with rfl | h'
          · exact Or.inr (processDeps_queue_sub ds (insert x r) (x :: q) x
              (List.mem_cons_self x q))
          · exact Or.inl h'
        · exact Or.inr h

theorem processDeps_deps_sub (deps : List String) :
    ∀ (r : Finset String) (q : List String) (d : String),
      d ∈ deps → d ∈ (processDeps deps r q).1 := by
  induction deps with
  | nil => intro r q d hd; simp at hd
  | cons a ds IH =>
      intro r q d hd
      by_cases ha : a ∈ r
      · simp only [processDeps, if_pos ha]
        rcases List.mem_cons.mp hd with rfl | hd'
        · exact processDeps_subset ds r q ha
        · exact IH r q d hd'
      · simp only [processDeps, if_neg ha]
        rcases List.mem_cons.mp hd with rfl | hd'
        · exact processDeps_subset ds (insert d r) (d :: q)
            (Finset.mem_insert_self d r)
        · exact IH (insert a r) (a :: q) d hd'

theorem processDeps_measure (V : Finset String) (deps : List String)
    (hV : ∀ d ∈ deps, d ∈ V) :
    ∀ (r : Finset String) (q : List String),
      2 * (V \ (processDeps deps r q).1).card + (processDeps deps r q).2.length ≤
        2 * (V \ r).card + q.length := by
  induction deps with
  | nil => intro r q; simp [processDeps]
  | cons d ds IH =>
      intro r q
      have hdV : d ∈ V := hV d (List.mem_cons_self d ds)
      have hds : ∀ x ∈ ds, x ∈ V := fun x hx => hV x (List.mem_cons_of_mem d hx)
      by_cases hd : d ∈ r
      · simp only [processDeps, if_pos hd]
        exact IH hds r q
      · simp only [processDeps, if_neg hd]
        have h1 := IH hds (insert d r) (d :: q)
        have hmem : d ∈ V \ r := Finset.mem_sdiff.mpr ⟨hdV, hd⟩
        have hcard : (V \ insert d r).card + 1 = (V \ r).card := by
          rw [Finset.sdiff_insert]
          exact Finset.card_erase_add_one hmem
        simp only [List.length_cons] at h1
        omega

/-- The worklist loop of `expand_dependents` (affected.py lines 121–126,
detect_changes.py lines 85–90): pop a package from the queue and process its
dependents until the queue is empty.  The loop terminates because a package
is enqueued at most once, on its first insertion into the result, so
`2·|values \ result| + |queue|` strictly decreases each iteration. -/
def expandAux (rd : List (String × List String)) :
    List String → Finset String → Finset String
  | [], result => result
  | pkg :: queue, result =>
      expandAux rd (processDeps (lookupList rd pkg) result queue).2
        (processDeps (lookupList rd pkg) result queue).1
termination_by q r => 2 * ((valuesFinset rd) \ r).card + q.length
decreasing_by
  simp only [List.length_cons]
  have h := processDeps_measure (valuesFinset rd) (lookupList rd pkg)
    (fun d hd => lookup_mem_values rd pkg d hd) result queue
  omega

theorem expandAux_nil (rd : List (String × List String)) (r : Finset String) :
    expandAux rd [] r = r := by
  rw [expandAux]

theorem expandAux_cons (rd : List (String × List String)) (pkg : String)
    (queue : List String) (r : Finset String) :
    expandAux rd (pkg :: queue) r =
      expandAux rd (processDeps (lookupList rd pkg) r queue).2
        (processDeps (lookupList rd pkg) r queue).1 := by
  rw [expandAux]

/-- `expand_dependents` (affected.py lines 117–127, detect_changes.py lines
81–91): `result = set(changed); queue = list(changed); while queue: ...`. -/
def expand_dependents (changed : Finset String)
    (rd : List (String × List String)) : Finset String :=
  expandAux rd (changed.sort (· ≤ ·)) changed

/-- Step-counting variant of the worklist loop, used to state termination
(C10): `none` reports that the step budget ran out before the queue emptied. -/
def expandLoop (rd : List (String × List String)) :
    Nat → List String → Finset String → Option (Finset String)
  | _, [], result => some result
  | 0, _ :: _, _ => none
  | fuel + 1, pkg :: queue, result =>
      expandLoop rd fuel (processDeps (lookupList rd pkg) result queue).2
        (processDeps (lookupList rd pkg) result queue).1

theorem expandLoop_sufficient (rd : List (String × List String)) :
    ∀ (fuel : Nat) (q : List String) (r : Finset String),
      2 * ((valuesFinset rd) \ r).card + q.length ≤ fuel →
        expandLoop rd fuel q r = some (expandAux rd q r) := by
  intro fuel
  induction fuel with
  | zero =>
      intro q r hq
      cases q with
      | nil => rw [expandAux_nil]; rfl
      | cons p t => simp [List.length_cons] at hq
  | succ n IH =>
      intro q r hq
      cases q with
      | nil => rw [expandAux_nil]; rfl
      | cons p t =>
          rw [expandAux_cons]
          show expandLoop rd n (processDeps (lookupList rd p) r t).2
              (processDeps (lookupList rd p) r t).1 = _
          apply IH
          have h := processDeps_measure (valuesFinset rd) (lookupList rd p)
            (fun d hd => lookup_mem_values rd p d hd) r t
          simp only [List.length_cons] at hq
          omega

theorem expandLoop_grows (rd : List (String × List String)) :
    ∀ (fuel : Nat) (q : List String) (r s : Finset String),
      expandLoop rd fuel q r = some s → r ⊆ s := by
  intro fuel
  induction fuel with
  | zero =>
      intro q r s h
      cases q with
      | nil =>
          simp only [expandLoop, Option.some.injEq] at h
          subst h; exact Finset.Subset.refl r
      | cons p t => simp [expandLoop] at h
  | succ n IH =>
      intro q r s h
      cases q with
      | nil =>
          simp only [expandLoop, Option.some.injEq] at h
          subst h; exact Finset.Subset.refl r
      | cons p t =>
          rw [expandLoop] at h
          exact (processDeps_subset (lookupList rd p) r t).trans (IH _ _ _ h)

/-- The loop invariant of `expand_dependents`: every element of the current
result either is still on the queue, or has had all its dependents added. -/
def ExpandInv (rd : List (String × List String)) (q : List String)
    (r : Finset String) : Prop :=
  ∀ p ∈ r, p ∈ q ∨ ∀ d ∈ lookupList rd p, d ∈ r

theorem expandLoop_closed (rd : List (String × List String)) :
    ∀ (fuel : Nat) (q : List String) (r s : Finset String),
      expandLoop rd fuel q r = some s → ExpandInv rd q r →
        ∀ p ∈ s, ∀ d ∈ lookupList rd p, d ∈ s := by
  intro fuel
  induction fuel with
  | zero =>
      intro q r s h hinv
      cases q with
      | nil =>
          simp only [expandLoop, Option.some.injEq] at h
          subst h
          intro p hp d hd
          rcases hinv p hp with h0 | h0
          · simp at h0
          · exact h0 d hd
      | cons p t => simp [expandLoop] at h
  | succ n IH =>
      intro q r s h hinv
      cases q with
      | nil =>
          simp only [expandLoop, Option.some.injEq] at h
          subst h
          intro p hp d hd
          rcases hinv p hp with h0 | h0
          · simp at h0
          · exact h0 d hd
      | cons pkg t =>
          rw [expandLoop] at h
          apply IH _ _ _ h
          intro p hp
          by_cases hpr : p ∈ r
          · rcases hinv p hpr with hq | hclosed
            · rcases List.mem_cons.mp hq with rfl | hpt
              · exact Or.inr fun d hd =>
                  processDeps_deps_sub (lookupList rd p) r t d hd
              · exact Or.inl (processDeps_queue_sub (lookupList rd pkg) r t p hpt)
            · exact Or.inr fun d hd =>
                processDeps_subset (lookupList rd pkg) r t (hclosed d hd)
          · rcases processDeps_new_in_queue (lookupList rd pkg) r t p hp with h0 | h0
            · exact absurd h0 hpr
            · exact Or.inl h0

/-- Helper: the sufficient step budget for the worklist loop. -/
def expandBound (rd : List (String × List String)) (q : List String)
    (r : Finset String) : Nat :=
  2 * ((valuesFinset rd) \ r).card + q.length

theorem expand_dependents_loop (changed : Finset String)
    (rd : List (String × List String)) :
    expandLoop rd (expandBound rd (changed.sort (· ≤ ·)) changed)
        (changed.sort (· ≤ ·)) changed = some (expand_dependents changed rd) :=
  expandLoop_sufficient rd _ _ _ (Nat.le_refl _)

theorem expand_superset (changed : Finset String)
    (rd : List (String × List String)) :
    changed ⊆ expand_dependents changed rd :=
  expandLoop_grows rd _ _ _ _ (expand_dependents_loop changed rd)

theorem expand_closed (changed : Finset String)
    (rd : List (String × List String)) :
    ∀ p ∈ expand_dependents changed rd,
      ∀ d ∈ lookupList rd p, d ∈ expand_dependents changed rd := by
  apply expandLoop_closed rd _ _ _ _ (expand_dependents_loop changed rd)
  intro p hp
  exact Or.inl ((Finset.mem_sort (· ≤ ·)).mpr hp)

theorem expand_dependents_empty (rd : List (String × List String)) :
    expand_dependents ∅ rd = ∅ := by
  unfold expand_dependents
  rw [Finset.sort_empty, expandAux_nil]

/-- **C10.** `expand_dependents` terminates for every finite
reverse-dependency map and every finite starting set — cycles in the graph
included — because a package is put on the work queue at most once (only on
its first insertion into the result set): the step-counting loop completes
within the explicit budget `2·|values| + |initial queue|` and returns the
closure. -/
theorem expand_dependents_terminates (rd : List (String × List String))
    (changed : Finset String) :
    ∃ fuel, expandLoop rd fuel (changed.sort (· ≤ ·)) changed =
      some (expand_dependents changed rd) :=
  ⟨expandBound rd (changed.sort (· ≤ ·)) changed,
    expand_dependents_loop changed rd⟩

/-! ### Building the reverse-dependency map (`build_reverse_deps`) -/

/-- `reverse[base].append(name)` on the association-list embedding of a
`defaultdict(list)`. -/
def addEntry (rd : List (String × List String)) (k v : String) :
    List (String × List String) :=
  match rd with
  | [] => [(k, [v])]
  | (k', vs) :: rest =>
      if k' = k then (k', vs ++ [v]) :: rest else (k', vs) :: addEntry rest k v

/-- `build_reverse_deps` (affected.py lines 66–78, detect_changes.py lines
45–55): for every member, for every declared dependency whose normalized
name is a workspace package name, append the member's name to that package's
dependent list. -/
def build_reverse_deps (ms : List AMember) : List (String × List String) :=
  ms.foldl (fun rd m =>
    m.deps.foldl (fun rd dep =>
      if parse_dep_name dep ∈ ms.map AMember.name
      then addEntry rd (parse_dep_name dep) m.name else rd) rd) []

theorem lookup_addEntry (rd : List (String × List String)) (k v : String) :
    ∀ k', lookupList (addEntry rd k v) k' =
      if k = k' then lookupList rd k' ++ [v] else lookupList rd k' := by
  induction rd with
  | nil =>
      intro k'
      by_cases h : k = k' <;> simp [addEntry, lookupList, h]
  | cons p rest IH =>
      intro k'
      obtain ⟨k0, vs⟩ := p
      by_cases h0 : k0 = k
      · subst h0
        by_cases h : k0 = k'
        · subst h
          simp [addEntry, lookupList]
        · simp [addEntry, lookupList, h]
      · by_cases h : k0 = k'
        · subst h
          have hk : ¬ (k = k0) := fun he => h0 he.symm
          simp [addEntry, lookupList, h0, hk]
        · simp [addEntry, lookupList, h0, h, IH k']

theorem lookup_addEntry_mono (rd : List (String × List String))
    (k v k' x : String) (h : x ∈ lookupList rd k') :
    x ∈ lookupList (addEntry rd k v) k' := by
  rw [lookup_addEntry]
  by_cases hk : k = k'
  · rw [if_pos hk]; exact List.mem_append_left _ h
  · rw [if_neg hk]; exact h

theorem lookup_addEntry_self (rd : List (String × List String)) (k v : String) :
    v ∈ lookupList (addEntry rd k v) k := by
  rw [lookup_addEntry, if_pos rfl]
  exact List.mem_append_right _ (List.mem_cons_self v [])

theorem innerFold_mono (wn : List String) (name : String) (deps : List String) :
    ∀ (rd : List (String × List String)) (k x : String),
      x ∈ lookupList rd k →
        x ∈ lookupList (deps.foldl (fun rd dep =>
          if parse_dep_name dep ∈ wn
          then addEntry rd (parse_dep_name dep) name else rd) rd) k := by
  induction deps with
  | nil => intro rd k x h; exact h
  | cons dep ds IH =>
      intro rd k x h
      simp only [List.foldl_cons]
      by_cases hd : parse_dep_name dep ∈ wn
      · rw [if_pos hd]
        exact IH _ k x (lookup_addEntry_mono rd _ name k x h)
      · rw [if_neg hd]
        exact IH _ k x h

theorem innerFold_insert (wn : List String) (name : String) (deps : List String) :
    ∀ (rd : List (String × List String)) (dep : String), dep ∈ deps →
      parse_dep_name dep ∈ wn →
        name ∈ lookupList (deps.foldl (fun rd dep =>
          if parse_dep_name dep ∈ wn
          then addEntry rd (parse_dep_name dep) name else rd) rd)
            (parse_dep_name dep) := by
  induction deps with
  | nil => intro rd dep h; simp at h
  | cons d ds IH =>
      intro rd dep hdep hwn
      simp only [List.foldl_cons]
      rcases List.mem_cons.mp hdep with rfl | hdep'
      · rw [if_pos hwn]
        exact innerFold_mono wn name ds _ _ name
          (lookup_addEntry_self rd (parse_dep_name dep) name)
      · by_cases hd : parse_dep_name d ∈ wn
        · rw [if_pos hd]; exact IH _ dep hdep' hwn
        · rw [if_neg hd]; exact IH _ dep hdep' hwn

theorem outerFold_mono (wn : List String) (ms : List AMember) :
    ∀ (rd : List (String × List String)) (k x : String),
      x ∈ lookupList rd k →
        x ∈ lookupList (ms.foldl (fun rd m =>
          m.deps.foldl (fun rd dep =>
            if parse_dep_name dep ∈ wn
            then addEntry rd (parse_dep_name dep) m.name else rd) rd) rd) k := by
  induction ms with
  | nil => intro rd k x h; exact h
  | cons m rest IH =>
      intro rd k x h
      simp only [List.foldl_cons]
      exact IH _ k x (innerFold_mono wn m.name m.deps rd k x h)

theorem mem_build_reverse_deps (ms : List AMember) (m : AMember) (dep : String)
    (hm : m ∈ ms) (hdep : dep ∈ m.deps)
    (hwn : parse_dep_name dep ∈ ms.map AMember.name) :
    m.name ∈ lookupList (build_reverse_deps ms) (parse_dep_name dep) := by
  unfold build_reverse_deps
  generalize hwn' : ms.map AMember.name = wn at hwn
  clear hwn'
  suffices h : ∀ (ms' : List AMember) (rd : List (String × List String)),
      m ∈ ms' →
        m.name ∈ lookupList (ms'.foldl (fun rd m =>
          m.deps.foldl (fun rd dep =>
            if parse_dep_name dep ∈ wn
            then addEntry rd (parse_dep_name dep) m.name else rd) rd) rd)
              (parse_dep_name dep) by
    exact h ms [] hm
  intro ms'
  induction ms' with
  | nil => intro rd h; simp at h
  | cons m0 rest IH =>
      intro rd hmem
      simp only [List.foldl_cons]
      rcases List.mem_cons.mp hmem with heq | hmem'
      · subst heq
        exact outerFold_mono wn rest _ _ _
          (innerFold_insert wn m.name m.deps rd dep hdep hwn)
      · exact IH _ hmem'

/-- **C1.** For every workspace member list (hence every workspace dependency
graph) and every directly-changed package set, with no infrastructure change
and no force-all flag, the set returned by `expand_dependents` over the
reverse-dependency map is a superset of the directly-changed set, and is
closed under reverse edges: whenever a package is in the result, every member
that declares a workspace dependency normalizing to that package is also in
the result. -/
theorem expand_dependents_superset_closed (ms : List AMember)
    (changed : Finset String) :
    changed ⊆ expand_dependents changed (build_reverse_deps ms) ∧
      ∀ p ∈ expand_dependents changed (build_reverse_deps ms),
        ∀ m ∈ ms, p ∈ ms.map AMember.name →
          (∃ dep ∈ m.deps, parse_dep_name dep = p) →
            m.name ∈ expand_dependents changed (build_reverse_deps ms) := by
  constructor
  · exact expand_superset changed (build_reverse_deps ms)
  · intro p hp m hm hpwn hdep
    obtain ⟨dep, hdepmem, hdepeq⟩ := hdep
    have hlk : m.name ∈ lookupList (build_reverse_deps ms) p := by
      rw [← hdepeq]
      exact mem_build_reverse_deps ms m dep hm hdepmem (by rw [hdepeq]; exact hpwn)
    exact expand_closed changed (build_reverse_deps ms) p hp m.name hlk

/-- Witness for C1 at a concrete workspace: member `b` declares a dependency
on changed package `a`, so `b` lands in the affected set. -/
theorem expand_dependents_superset_closed_witness :
    "b" ∈ expand_dependents {"a"}
      (build_reverse_deps
        [⟨"b", "libs/b", ["a"]⟩, ⟨"a", "libs/a", []⟩]) := by
  have h := expand_dependents_superset_closed
    [⟨"b", "libs/b", ["a"]⟩, ⟨"a", "libs/a", []⟩] {"a"}
  exact h.2 "a" (h.1 (by decide)) ⟨"b", "libs/b", ["a"]⟩ (by decide)
    (by decide) ⟨"a", by decide, by decide⟩

/-! ### Infrastructure patterns and the top-level affected computation -/

/-- `INFRA_PATTERNS` (affected.py lines 34–42). -/
def INFRA_PATTERNS : List String :=
  ["pyproject.toml", ".python-version", "uv.lock", "scripts/", ".github/",
    "Makefile", ".pre-commit-config.yaml"]

/-- `is_infra_file` (affected.py lines 98–105): the root `pyproject.toml`
exactly, or an exact or prefix match against any other pattern. -/
def is_infra_file (filepath : String) : Bool :=
  if filepath == "pyproject.toml" then true
  else (INFRA_PATTERNS.filter (fun pattern => pattern != "pyproject.toml")).any
    (fun pattern => filepath == pattern || strStartsWith filepath pattern)

/-- The directly-changed set of `main` (affected.py lines 190–194): the
owning package of every changed file that maps to one. -/
def directly_changed (ms : List AMember) (changed_files : List String) :
    Finset String :=
  (changed_files.filterMap (fun f => file_to_package f ms)).toFinset

/-- The affected-set computation of `main` (affected.py lines 184–198) after
the `--all` force flag has been handled (the claims below all assume no
force-all flag): the affected package set together with the `run_all` flag. -/
def compute_affected (ms : List AMember) (changed_files : List String) :
    Finset String × Bool :=
  if changed_files.any is_infra_file then
    ((ms.map AMember.name).toFinset, true)
  else
    (expand_dependents (directly_changed ms changed_files)
      (build_reverse_deps ms), false)

/-- **C2.** If any changed file matches an infrastructure pattern, the
affected set equals the full set of discovered packages and `run_all` is
true, regardless of the dependency graph's edges (the declared dependencies
of the members never enter this branch). -/
theorem compute_affected_infra (ms : List AMember) (changed_files : List String)
    (h : ∃ f ∈ changed_files, is_infra_file f = true) :
    compute_affected ms changed_files = ((ms.map AMember.name).toFinset, true) := by
  have hb : changed_files.any is_infra_file = true := List.any_eq_true.mpr h
  simp [compute_affected, hb]

/-- Witness for C2: `["uv.lock"]` — the root lockfile alone — yields
`run_all = true` and every discovered package, for a workspace whose graph
has an edge. -/
theorem compute_affected_infra_witness :
    compute_affected [⟨"alpha", "libs/alpha", []⟩, ⟨"beta", "apps/beta", ["alpha"]⟩]
        ["uv.lock"] =
      (([⟨"alpha", "libs/alpha", []⟩,
          ⟨"beta", "apps/beta", ["alpha"]⟩].map AMember.name).toFinset, true) :=
  compute_affected_infra _ _ ⟨"uv.lock", by decide, by decide⟩

/-- **C3 counterexample.** The claimed equivalence "affected set empty iff
the changed-file list is empty (and no infra match)" fails: a non-empty
changed-file list whose single file is owned by no package yields an empty
affected set. -/
theorem compute_affected_empty_iff_fails :
    compute_affected [⟨"pkg", "libs/pkg", []⟩] ["README.md"] = (∅, false) ∧
      ("README.md" :: ([] : List String)) ≠ [] := by
  refine ⟨?_, by decide⟩
  have hinfra : (["README.md"].any is_infra_file) = false := by decide
  have hdir : directly_changed [⟨"pkg", "libs/pkg", []⟩] ["README.md"] = ∅ := by
    decide
  simp only [compute_affected, hinfra, Bool.false_eq_true, if_false, hdir,
    expand_dependents_empty]

/-- **C3 amended.** With no force-all flag and no changed file matching an
infrastructure pattern, the affected set is empty iff the directly-changed
set is empty, i.e. iff no changed file is owned by any workspace package;
the `run_all` flag is false, and in particular an empty changed-file list
yields an empty affected set. -/
theorem compute_affected_empty_iff (ms : List AMember)
    (changed_files : List String)
    (h : changed_files.any is_infra_file = false) :
    ((compute_affected ms changed_files).1 = ∅ ↔
        directly_changed ms changed_files = ∅) ∧
      (compute_affected ms changed_files).2 = false ∧
      (changed_files = [] → (compute_affected ms changed_files).1 = ∅) := by
  have hif : compute_affected ms changed_files =
      (expand_dependents (directly_changed ms changed_files)
        (build_reverse_deps ms), false) := by
    simp [compute_affected, h]
  rw [hif]
  refine ⟨⟨fun he => ?_, fun he => ?_⟩, rfl, fun he => ?_⟩
  · have he' : expand_dependents (directly_changed ms changed_files)
        (build_reverse_deps ms) = ∅ := he
    have hsub := expand_superset (directly_changed ms changed_files)
      (build_reverse_deps ms)
    rw [he'] at hsub
    exact Finset.subset_empty.mp hsub
  · show expand_dependents (directly_changed ms changed_files)
      (build_reverse_deps ms) = ∅
    rw [he]
    exact expand_dependents_empty _
  · subst he
    show expand_dependents (directly_changed ms []) (build_reverse_deps ms) = ∅
    have hdir : directly_changed ms [] = ∅ := rfl
    rw [hdir]
    exact expand_dependents_empty _

/-- Witness for C3's amended theorem at a concrete input. -/
theorem compute_affected_empty_iff_witness :
    ((compute_affected [⟨"pkg", "libs/pkg", []⟩] []).1 = ∅ ↔
        directly_changed [⟨"pkg", "libs/pkg", []⟩] [] = ∅) ∧
      (compute_affected [⟨"pkg", "libs/pkg", []⟩] []).2 = false ∧
      (([] : List String) = [] →
        (compute_affected [⟨"pkg", "libs/pkg", []⟩] []).1 = ∅) :=
  compute_affected_empty_iff [⟨"pkg", "libs/pkg", []⟩] [] (by decide)

/-! ### Cycle detection (`check_no_cycles`, check_deps.py lines 98–134)

The detector is parameterized by the node list (`for name in members`) and
the forward adjacency map built on lines 100–107 (same association-list
embedding as `reverse_deps`, read through `graph.get(node, [])`).  The
recursive Python `dfs` carries mutable `visited` / `in_stack` sets
(embedded as lists used only for membership; `in_stack.remove(node)` is
`List.erase`, adequate because a node is pushed only when absent), a shared
`path` list whose `append`/`pop` pairs balance around each frame (so it is
passed functionally, extended for the recursive calls), and an accumulated
cycle-report list. -/

structure DfsState where
  visited : List String
  in_stack : List String
  cycles : List String
deriving DecidableEq

/-- Python `path.index(node)`: index of the first occurrence. -/
def idxOf : List String → String → Nat
  | [], _ => 0
  | a :: l, x => if a = x then 0 else idxOf l x + 1

/-- The report of check_deps.py lines 116–118:
`" → ".join([*path[cycle_start:], node])` under a fixed prefix. -/
def cycleMsg (path : List String) (node : String) : String :=
  "circular dependency: " ++
    String.intercalate " → " (path.drop (idxOf path node) ++ [node])

/-- The recursive `dfs` of `check_no_cycles` (check_deps.py lines 114-128),
fuel-indexed (structural recursion on the fuel).  A frame either returns at
once (node already on the stack: report the cycle from its first occurrence
in the path; node visited: skip) or marks the node visited and on-stack,
traverses its neighbors in order with the extended path (the Python
`for neighbor in graph.get(node, [])` loop becomes a left fold threading the
state), and finally removes the node from the stack.  Fuel 0 returns the
state unchanged; the driver's fuel (`dfsFuel`) exceeds any reachable
recursion depth, since every frame that recurses marks a distinct fresh node
visited. -/
def dfs (g : List (String × List String)) :
    Nat → String → List String → DfsState → DfsState
  | 0, _, _, st => st
  | fuel + 1, node, path, st =>
      if node ∈ st.in_stack then
        { st with cycles := st.cycles ++ [cycleMsg path node] }
      else if node ∈ st.visited then st
      else
        let st2 := (lookupList g node).foldl
          (fun acc nb => dfs g fuel nb (path ++ [node]) acc)
          ⟨node :: st.visited, node :: st.in_stack, st.cycles⟩
        ⟨st2.visited, st2.in_stack.erase node, st2.cycles⟩

/-- Fuel exceeding any possible DFS depth: every node reached is either a
driver name or occurs in some adjacency value. -/
def dfsFuel (names : List String) (g : List (String × List String)) : Nat :=
  names.length + ((g.map Prod.snd).map List.length).sum + 1

/-- The traversal of `check_no_cycles` (check_deps.py lines 109–134):
`for name in members: if name not in visited: dfs(name, [])`, returning the
accumulated cycle reports. -/
def check_no_cycles (names : List String)
    (g : List (String × List String)) : List String :=
  (names.foldl
    (fun st name =>
      if name ∈ st.visited then st else dfs g (dfsFuel names g) name [] st)
    ⟨[], [], []⟩).cycles

/-- A forward edge of the adjacency map. -/
def hasEdge (g : List (String × List String)) (a b : String) : Prop :=
  b ∈ lookupList g a

/-- Nonempty edge paths. -/
inductive Reaches (g : List (String × List String)) : String → String → Prop
  | single {a b : String} : hasEdge g a b → Reaches g a b
  | head {a b c : String} : hasEdge g a b → Reaches g b c → Reaches g a c

/-- A graph is acyclic when no node reaches itself through a nonempty path. -/
def Acyclic (g : List (String × List String)) : Prop :=
  ∀ n, ¬ Reaches g n n

/-- `chainTo g path node`: consecutive elements of `path` are edges and the
last element of `path` has an edge to `node` (trivial for an empty path) —
the invariant tying the DFS `path` argument to the node being visited. -/
def chainTo (g : List (String × List String)) : List String → String → Prop
  | [], _ => True
  | [a], n => hasEdge g a n
  | a :: b :: rest, n => hasEdge g a b ∧ chainTo g (b :: rest) n

theorem chainTo_snoc (g : List (String × List String)) :
    ∀ (path : List String) (node nb : String),
      chainTo g path node → hasEdge g node nb →
        chainTo g (path ++ [node]) nb := by
  intro path
  induction path with
  | nil => intro node nb _ h2; exact h2
  | cons a rest IH =>
      intro node nb h1 h2
      cases rest with
      | nil => exact ⟨h1, h2⟩
      | cons b r =>
          obtain ⟨hab, hrest⟩ := h1
          have := IH node nb hrest h2
          simp only [List.cons_append] at this ⊢
          exact ⟨hab, this⟩

theorem chainTo_mem_reaches (g : List (String × List String)) :
    ∀ (path : List String) (node p : String),
      chainTo g path node → p ∈ path → Reaches g p node := by
  intro path
  induction path with
  | nil => intro node p _ hp; simp at hp
  | cons a rest IH =>
      intro node p hchain hp
      rcases List.mem_cons.mp hp with rfl | hp'
      · cases rest with
        | nil => exact Reaches.single hchain
        | cons b r =>
            exact Reaches.head hchain.1
              (IH node b hchain.2 (List.mem_cons_self b r))
      · cases rest with
        | nil => simp at hp'
        | cons b r => exact IH node p hchain.2 hp'

/-- State preservation: same cycle reports, same stack. -/
def DfsPres (st' st : DfsState) : Prop :=
  st'.cycles = st.cycles ∧ st'.in_stack = st.in_stack

/-- On an acyclic graph, a `dfs` call whose path is an edge chain into the
visited node and whose stack mirrors the path reports nothing and restores
the stack — for every fuel value (the second conjunct handles the neighbor
fold). -/
theorem dfs_acyclic (g : List (String × List String)) (hA : Acyclic g) :
    ∀ fuel : Nat,
      (∀ (node : String) (path : List String) (st : DfsState),
        chainTo g path node → (∀ x, x ∈ st.in_stack ↔ x ∈ path) →
          DfsPres (dfs g fuel node path st) st) ∧
      (∀ (nbs path : List String) (st : DfsState),
        (∀ nb ∈ nbs, chainTo g path nb) → (∀ x, x ∈ st.in_stack ↔ x ∈ path) →
          DfsPres (nbs.foldl (fun acc nb => dfs g fuel nb path acc) st) st) := by
  intro fuel
  induction fuel with
  | zero =>
      constructor
      · intro node path st _ _
        exact ⟨rfl, rfl⟩
      · intro nbs
        induction nbs with
        | nil => intro path st _ _; exact ⟨rfl, rfl⟩
        | cons nb rest IH =>
            intro path st hch hst
            exact IH path st (fun x hx => hch x (List.mem_cons_of_mem nb hx)) hst
  | succ n IHn =>
      have hdfs : ∀ (node : String) (path : List String) (st : DfsState),
          chainTo g path node → (∀ x, x ∈ st.in_stack ↔ x ∈ path) →
            DfsPres (dfs g (n + 1) node path st) st := by
        intro node path st hchain hstack
        have hnotstack : node ∉ st.in_stack := by
          intro hmem
          exact hA node (chainTo_mem_reaches g path node node hchain
            ((hstack node).mp hmem))
        rw [show dfs g (n + 1) node path st =
            (if node ∈ st.in_stack then
              { st with cycles := st.cycles ++ [cycleMsg path node] }
            else if node ∈ st.visited then st
            else
              let st2 := (lookupList g node).foldl
                (fun acc nb => dfs g n nb (path ++ [node]) acc)
                ⟨node :: st.visited, node :: st.in_stack, st.cycles⟩
              ⟨st2.visited, st2.in_stack.erase node, st2.cycles⟩) from rfl]
        rw [if_neg hnotstack]
        by_cases hvis : node ∈ st.visited
        · rw [if_pos hvis]
          exact ⟨rfl, rfl⟩
        · rw [if_neg hvis]
          have hch' : ∀ nb ∈ lookupList g node, chainTo g (path ++ [node]) nb :=
            fun nb hnb => chainTo_snoc g path node nb hchain hnb
          have hst' : ∀ x, x ∈
              (⟨node :: st.visited, node :: st.in_stack, st.cycles⟩ :
                DfsState).in_stack ↔ x ∈ path ++ [node] := by
            intro x
            simp only [List.mem_cons, List.mem_append, List.mem_singleton]
            rw [hstack x]
            tauto
          have h2 := IHn.2 (lookupList g node) (path ++ [node])
            ⟨node :: st.visited, node :: st.in_stack, st.cycles⟩ hch' hst'
          refine ⟨h2.1, ?_⟩
          show ((lookupList g node).foldl
              (fun acc nb => dfs g n nb (path ++ [node]) acc)
              ⟨node :: st.visited, node :: st.in_stack, st.cycles⟩).in_stack.erase
                node = st.in_stack
          rw [h2.2]
          exact List.erase_cons_head node st.in_stack
      refine ⟨hdfs, ?_⟩
      intro nbs
      induction nbs with
      | nil => intro path st _ _; exact ⟨rfl, rfl⟩
      | cons nb rest IH =>
          intro path st hch hst
          have h1 := hdfs nb path st (hch nb (List.mem_cons_self nb rest)) hst
          have hst2 : ∀ x, x ∈ (dfs g (n + 1) nb path st).in_stack ↔ x ∈ path := by
            intro x; rw [h1.2]; exact hst x
          have h2 := IH path (dfs g (n + 1) nb path st)
            (fun x hx => hch x (List.mem_cons_of_mem nb hx)) hst2
          exact ⟨h2.1.trans h1.1, h2.2.trans h1.2⟩

theorem check_no_cycles_of_acyclic (names : List String)
    (g : List (String × List String)) (hA : Acyclic g) :
    check_no_cycles names g = [] := by
  unfold check_no_cycles
  suffices h : ∀ (ns : List String) (st : DfsState), st.in_stack = [] →
      (ns.foldl (fun st name =>
        if name ∈ st.visited then st else dfs g (dfsFuel names g) name [] st)
          st).cycles = st.cycles ∧
      (ns.foldl (fun st name =>
        if name ∈ st.visited then st else dfs g (dfsFuel names g) name [] st)
          st).in_stack = [] by
    exact (h names ⟨[], [], []⟩ rfl).1
  intro ns
  induction ns with
  | nil => intro st h0; exact ⟨rfl, h0⟩
  | cons name rest IH =>
      intro st h0
      rw [List.foldl_cons]
      by_cases hvis : name ∈ st.visited
      · rw [if_pos hvis]
        exact IH st h0
      · rw [if_neg hvis]
        have hpres := (dfs_acyclic g hA (dfsFuel names g)).1 name [] st
          trivial (by intro x; simp [h0])
        have := IH (dfs g (dfsFuel names g) name [] st)
          (hpres.2.trans h0)
        exact ⟨this.1.trans hpres.1, this.2⟩

/-- Decidable substring test (on the character lists). -/
def strContainsSub (s t : String) : Bool :=
  (List.range (s.data.length + 1)).any
    (fun i => t.data.isPrefixOf (s.data.drop i))

/-- **C4.** On the graph with edges A→B, B→C, C→A the cycle detector reports
exactly one cycle whose description contains all three package names; on
every acyclic graph it returns the empty list. -/
theorem check_no_cycles_triangle_and_acyclic :
    (check_no_cycles ["A", "B", "C"]
          [("A", ["B"]), ("B", ["C"]), ("C", ["A"])] =
        ["circular dependency: A → B → C → A"] ∧
      (["A", "B", "C"].all
        (fun n => strContainsSub "circular dependency: A → B → C → A" n)) = true) ∧
    ∀ (names : List String) (g : List (String × List String)),
      Acyclic g → check_no_cycles names g = [] :=
  ⟨⟨by decide, by decide⟩,
    fun names g hA => check_no_cycles_of_acyclic names g hA⟩

theorem acyclic_nil : Acyclic [] := by
  intro n h
  cases h with
  | single he => simp [hasEdge, lookupList] at he
  | head he _ => simp [hasEdge, lookupList] at he

/-- Witness for C4's acyclicity hypothesis at a concrete graph. -/
theorem check_no_cycles_acyclic_witness :
    check_no_cycles ["X", "Y"] [] = [] :=
  check_no_cycles_triangle_and_acyclic.2 ["X", "Y"] [] acyclic_nil

/-! ### Dependency direction (`check_dependency_direction`, check_deps.py
lines 148–174)

A member here carries its name, the first component of its manifest path
relative to the root (which is all that `classify_member` consults), and its
raw declared dependency specifiers. -/

structure CMember where
  name : String
  top : String
  deps : List String
deriving DecidableEq

/-- The `app_names` set built on check_deps.py lines 151–159 (the `lib_names`
set built alongside it is never read by the checks that follow). -/
def app_names (ms : List CMember) : List String :=
  (ms.filter (fun m => classify_member m.top == some "app")).map CMember.name

/-- The app-on-app violation message (check_deps.py line 170). -/
def appMsg (name base : String) : String :=
  name ++ " (app): cannot depend on \x27" ++ base ++
    "\x27 (another app) — apps should only depend on libs"

/-- The lib-on-app violation message (check_deps.py line 173). -/
def libMsg (name base : String) : String :=
  name ++ " (lib): cannot depend on \x27" ++ base ++
    "\x27 (an app) — libs must not depend on apps"

/-- The loop body of check_deps.py lines 164–173 for a single declared
dependency: skip names outside the workspace; an app depending on an app
appends the app violation; a lib depending on an app appends the lib
violation. -/
def depErrors (wnames appnames : List String) (kind : Option String)
    (name dep : String) : List String :=
  if parse_dep_name dep ∈ wnames then
    (if kind = some "app" ∧ parse_dep_name dep ∈ appnames
      then [appMsg name (parse_dep_name dep)] else []) ++
    (if kind = some "lib" ∧ parse_dep_name dep ∈ appnames
      then [libMsg name (parse_dep_name dep)] else [])
  else []

/-- `check_dependency_direction` (check_deps.py lines 148–174): the violation
messages accumulated over all members and their declared dependencies, in
order. -/
def check_dependency_direction (ms : List CMember) (wnames : List String) :
    List String :=
  (ms.map (fun m =>
    (m.deps.map
      (depErrors wnames (app_names ms) (classify_member m.top)
        m.name)).flatten)).flatten

/-- A name without space characters (true of any real package name); keeps
the formatted violation messages pairwise distinct. -/
def spaceFreeB (s : String) : Bool := s.data.all (fun c => c != ' ')

theorem append_split_at_space :
    ∀ (a c b d : List Char), (∀ x ∈ a, x ≠ ' ') → (∀ x ∈ c, x ≠ ' ') →
      b.head? = some ' ' → d.head? = some ' ' → a ++ b = c ++ d →
        a = c ∧ b = d := by
  intro a
  induction a with
  | nil =>
      intro c b d _ hc hb _ h
      cases c with
      | nil => exact ⟨rfl, by simpa using h⟩
      | cons y c2 =>
          exfalso
          rw [List.nil_append] at h
          rw [h] at hb
          simp only [List.cons_append, List.head?_cons, Option.some.injEq] at hb
          exact hc y (List.mem_cons_self y c2) hb
  | cons x a2 IH =>
      intro c b d ha hc hb hd h
      cases c with
      | nil =>
          exfalso
          rw [List.nil_append] at h
          rw [← h] at hd
          simp only [List.cons_append, List.head?_cons, Option.some.injEq] at hd
          exact ha x (List.mem_cons_self x a2) hd
      | cons y c2 =>
          simp only [List.cons_append, List.cons.injEq] at h
          obtain ⟨hxy, h2⟩ := h
          obtain ⟨hac, hbd⟩ := IH c2 b d
            (fun z hz => ha z (List.mem_cons_of_mem x hz))
            (fun z hz => hc z (List.mem_cons_of_mem y hz)) hb hd h2
          exact ⟨by rw [hxy, hac], hbd⟩

theorem appMsg_data (n b : String) :
    (appMsg n b).data = n.data ++ (" (app): cannot depend on \x27".data ++
      (b.data ++ "\x27 (another app) — apps should only depend on libs".data)) := by
  simp [appMsg, String.data_append, List.append_assoc]

theorem libMsg_data (n b : String) :
    (libMsg n b).data = n.data ++ (" (lib): cannot depend on \x27".data ++
      (b.data ++ "\x27 (an app) — libs must not depend on apps".data)) := by
  simp [libMsg, String.data_append, List.append_assoc]

theorem appMsg_inj {n1 b1 n2 b2 : String}
    (h1 : ∀ x ∈ n1.data, x ≠ ' ') (h2 : ∀ x ∈ n2.data, x ≠ ' ')
    (h : appMsg n1 b1 = appMsg n2 b2) : n1 = n2 ∧ b1 = b2 := by
  have hd : (appMsg n1 b1).data = (appMsg n2 b2).data := by rw [h]
  rw [appMsg_data, appMsg_data] at hd
  have hsp : ∀ r : List Char,
      (" (app): cannot depend on \x27".data ++ r).head? = some ' ' := by
    intro r
    rw [List.head?_append_of_ne_nil _ (by decide)]
    decide
  obtain ⟨hn, hrest⟩ := append_split_at_space _ _ _ _ h1 h2
    (hsp _) (hsp _) hd
  have hb1 := List.append_cancel_left hrest
  have hb2 := List.append_cancel_right hb1
  exact ⟨congrArg String.mk hn, congrArg String.mk hb2⟩

theorem appMsg_ne_libMsg {n1 b1 n2 b2 : String}
    (h1 : ∀ x ∈ n1.data, x ≠ ' ') (h2 : ∀ x ∈ n2.data, x ≠ ' ') :
    appMsg n1 b1 ≠ libMsg n2 b2 := by
  intro h
  have hd : (appMsg n1 b1).data = (libMsg n2 b2).data := by rw [h]
  rw [appMsg_data, libMsg_data] at hd
  have hspA : ∀ r : List Char,
      (" (app): cannot depend on \x27".data ++ r).head? = some ' ' := by
    intro r
    rw [List.head?_append_of_ne_nil _ (by decide)]
    decide
  have hspL : ∀ r : List Char,
      (" (lib): cannot depend on \x27".data ++ r).head? = some ' ' := by
    intro r
    rw [List.head?_append_of_ne_nil _ (by decide)]
    decide
  obtain ⟨_, hrest⟩ := append_split_at_space _ _ _ _ h1 h2
    (hspA _) (hspL _) hd
  have := List.append_inj hrest (by decide)
  exact absurd this.1 (by decide)

theorem isPrefixOf_append_self : ∀ (t r : List Char),
    t.isPrefixOf (t ++ r) = true := by
  intro t
  induction t with
  | nil => intro r; cases r <;> rfl
  | cons a t IH =>
      intro r
      show (a == a && t.isPrefixOf (t ++ r)) = true
      simp [IH]

theorem strContainsSub_of_decomp (s t : String) (l r : List Char)
    (h : s.data = l ++ (t.data ++ r)) : strContainsSub s t = true := by
  unfold strContainsSub
  apply List.any_eq_true.mpr
  refine ⟨l.length, List.mem_range.mpr ?_, ?_⟩
  · rw [h]
    simp [List.length_append]
    omega
  · rw [h]
    rw [List.drop_left l (t.data ++ r)]
    exact isPrefixOf_append_self t.data r

theorem sum_map_ite (q : String → Prop) [DecidablePred q] (l : List String) :
    (l.map (fun d => if q d then 1 else 0)).sum =
      (l.filter (fun d => decide (q d))).length := by
  induction l with
  | nil => rfl
  | cons d ds IH =>
      by_cases h : q d <;> simp [List.filter_cons, h, IH, Nat.add_comm]

theorem depErrors_count_ne (wn an : List String) (kind : Option String)
    (nm dep An Bn : String)
    (hAn : ∀ x ∈ An.data, x ≠ ' ') (hnm : ∀ x ∈ nm.data, x ≠ ' ')
    (hne : nm ≠ An) :
    (depErrors wn an kind nm dep).count (appMsg An Bn) = 0 := by
  unfold depErrors
  by_cases h1 : parse_dep_name dep ∈ wn
  · rw [if_pos h1]
    apply List.count_eq_zero.mpr
    intro hmem
    rcases List.mem_append.mp hmem with hm | hm
    · by_cases h2 : kind = some "app" ∧ parse_dep_name dep ∈ an
      · rw [if_pos h2] at hm
        have he := List.mem_singleton.mp hm
        exact hne (appMsg_inj hnm hAn he.symm).1
      · rw [if_neg h2] at hm; cases hm
    · by_cases h3 : kind = some "lib" ∧ parse_dep_name dep ∈ an
      · rw [if_pos h3] at hm
        have he := List.mem_singleton.mp hm
        exact appMsg_ne_libMsg hAn hnm he
      · rw [if_neg h3] at hm; cases hm
  · rw [if_neg h1]; rfl

theorem depErrors_count_self (wn an : List String) (An Bn dep : String)
    (hAn : ∀ x ∈ An.data, x ≠ ' ')
    (hBwn : Bn ∈ wn) (hBan : Bn ∈ an) :
    (depErrors wn an (some "app") An dep).count (appMsg An Bn) =
      if parse_dep_name dep = Bn then 1 else 0 := by
  unfold depErrors
  by_cases hb : parse_dep_name dep = Bn
  · rw [if_pos hb, hb, if_pos hBwn, if_pos ⟨rfl, hBan⟩,
      if_neg (by simp)]
    simp
  · rw [if_neg hb]
    by_cases h1 : parse_dep_name dep ∈ wn
    · rw [if_pos h1]
      apply List.count_eq_zero.mpr
      intro hmem
      rcases List.mem_append.mp hmem with hm | hm
      · by_cases h2 : (some "app" : Option String) = some "app" ∧
            parse_dep_name dep ∈ an
        · rw [if_pos h2] at hm
          have he := List.mem_singleton.mp hm
          exact hb (appMsg_inj hAn hAn he.symm).2
        · rw [if_neg h2] at hm; cases hm
      · by_cases h3 : (some "app" : Option String) = some "lib" ∧
            parse_dep_name dep ∈ an
        · exact absurd h3.1 (by decide)
        · rw [if_neg h3] at hm; cases hm
    · rw [if_neg h1]; rfl

theorem sum_map_name_single (f : CMember → Nat) :
    ∀ (l : List CMember) (A : CMember), A ∈ l → (l.map CMember.name).Nodup →
      (∀ m ∈ l, m.name ≠ A.name → f m = 0) → (l.map f).sum = f A := by
  intro l
  induction l with
  | nil => intro A hA _ _; cases hA
  | cons x rest IH =>
      intro A hA hnd h0
      rw [List.map_cons, List.nodup_cons] at hnd
      simp only [List.map_cons, List.sum_cons]
      rcases List.mem_cons.mp hA with heq | hmem
      · subst heq
        have hz : (rest.map f).sum = 0 := by
          apply List.sum_eq_zero
          intro v hv
          rw [List.mem_map] at hv
          obtain ⟨m, hm, rfl⟩ := hv
          apply h0 m (List.mem_cons_of_mem _ hm)
          intro he
          exact hnd.1 (he ▸ List.mem_map_of_mem CMember.name hm)
        rw [hz, Nat.add_zero]
      · have hx0 : f x = 0 := by
          apply h0 x (List.mem_cons_self x rest)
          intro he
          exact hnd.1 (he ▸ List.mem_map_of_mem CMember.name hmem)
        rw [hx0, Nat.zero_add]
        exact IH A hmem hnd.2
          (fun m hm hne => h0 m (List.mem_cons_of_mem _ hm) hne)

/-- **C5.** For a workspace with distinct, space-free package names in which
App-classified member `A` declares workspace-internal dependencies on
App-classified member `B`, the dependency-direction check emits the
app-on-app violation naming both `A` and `B` exactly as many times as `A`
declares a dependency normalizing to `B` — exactly once when it declares
exactly one such dependency, and not at all when it declares none — and
that violation's message contains both package names. -/
theorem check_dependency_direction_app_app (ms : List CMember) (A B : CMember)
    (hnd : (ms.map CMember.name).Nodup)
    (hsf : ∀ m ∈ ms, spaceFreeB m.name = true)
    (hA : A ∈ ms) (hB : B ∈ ms)
    (hAapp : classify_member A.top = some "app")
    (hBapp : classify_member B.top = some "app") :
    (check_dependency_direction ms (ms.map CMember.name)).count
        (appMsg A.name B.name) =
      (A.deps.filter (fun d => parse_dep_name d = B.name)).length ∧
    strContainsSub (appMsg A.name B.name) A.name = true ∧
    strContainsSub (appMsg A.name B.name) B.name = true := by
  have hsf2 : ∀ m ∈ ms, ∀ x ∈ m.name.data, x ≠ ' ' := by
    intro m hm x hx
    have := List.all_eq_true.mp (hsf m hm) x hx
    simpa using this
  have hBwn : B.name ∈ ms.map CMember.name := List.mem_map_of_mem CMember.name hB
  have hBan : B.name ∈ app_names ms := by
    apply List.mem_map_of_mem CMember.name
    apply List.mem_filter.mpr
    refine ⟨hB, ?_⟩
    rw [hBapp]
    rfl
  refine ⟨?_, ?_, ?_⟩
  · unfold check_dependency_direction
    rw [List.count_flatten, List.map_map]
    have h0 : ∀ m ∈ ms, m.name ≠ A.name →
        List.count (appMsg A.name B.name)
          ((m.deps.map (depErrors (ms.map CMember.name) (app_names ms)
            (classify_member m.top) m.name)).flatten) = 0 := by
      intro m hm hne
      rw [List.count_flatten, List.map_map]
      apply List.sum_eq_zero
      intro v hv
      rw [List.mem_map] at hv
      obtain ⟨d, _, rfl⟩ := hv
      exact depErrors_count_ne (ms.map CMember.name) (app_names ms)
        (classify_member m.top) m.name d A.name B.name
        (hsf2 A hA) (hsf2 m hm) hne
    have htotal := sum_map_name_single
      (fun m => List.count (appMsg A.name B.name)
        ((m.deps.map (depErrors (ms.map CMember.name) (app_names ms)
          (classify_member m.top) m.name)).flatten)) ms A hA hnd h0
    refine Eq.trans ?_ (Eq.trans htotal ?_)
    · rfl
    · show List.count (appMsg A.name B.name)
        ((A.deps.map (depErrors (ms.map CMember.name) (app_names ms)
          (classify_member A.top) A.name)).flatten) = _
      rw [List.count_flatten, List.map_map, hAapp]
      have hcongr : ∀ d ∈ A.deps,
          (List.count (appMsg A.name B.name) ∘
            depErrors (ms.map CMember.name) (app_names ms)
              (some "app") A.name) d =
            (fun d => if parse_dep_name d = B.name then 1 else 0) d := by
        intro d _
        exact depErrors_count_self (ms.map CMember.name) (app_names ms)
          A.name B.name d (hsf2 A hA) hBwn hBan
      rw [List.map_congr_left hcongr]
      exact sum_map_ite (fun d => parse_dep_name d = B.name) A.deps
  · apply strContainsSub_of_decomp _ _ []
      (" (app): cannot depend on \x27".data ++
        (B.name.data ++ "\x27 (another app) — apps should only depend on libs".data))
    rw [appMsg_data, List.nil_append]
  · apply strContainsSub_of_decomp _ _
      (A.name.data ++ " (app): cannot depend on \x27".data)
      ("\x27 (another app) — apps should only depend on libs".data)
    rw [appMsg_data]
    simp [List.append_assoc]

/-- Witness for C5 at a concrete workspace: app `a1` declares exactly one
dependency on app `a2`. -/
theorem check_dependency_direction_app_app_witness :
    (check_dependency_direction
        [⟨"a1", "apps", ["a2"]⟩, ⟨"a2", "apps", []⟩]
        ([⟨"a1", "apps", ["a2"]⟩, ⟨"a2", "apps", []⟩].map CMember.name)).count
        (appMsg "a1" "a2") =
      ((["a2"] : List String).filter
        (fun d => parse_dep_name d = "a2")).length ∧
    strContainsSub (appMsg "a1" "a2") "a1" = true ∧
    strContainsSub (appMsg "a1" "a2") "a2" = true :=
  check_dependency_direction_app_app
    [⟨"a1", "apps", ["a2"]⟩, ⟨"a2", "apps", []⟩]
    ⟨"a1", "apps", ["a2"]⟩ ⟨"a2", "apps", []⟩
    (by decide) (by decide) (by decide) (by decide) (by decide) (by decide)

end Pymono
